import Mathlib

/-!
Verification of the altseason-indicator dashboard (`src/app.py`) against its
natural-language specification.  The Python code is shallowly embedded:
time series become association lists from calendar dates (naturals) to
exact rationals, the HTTP layer becomes an oracle of scripted outcomes,
and pandas operations (`drop_duplicates`, `dropna` joins, `rolling.mean`)
become the corresponding list functions.
-/

namespace Altseason

/-- A date-indexed numeric series: the embedding of a pandas Series with a
date index.  Dates are naturals (days), values exact rationals. -/
abbrev Series := List (Nat × ℚ)

/-- Look up the value of a series at a date (first matching index entry,
as pandas label lookup on a unique index). -/
def seriesAt (s : Series) (d : Nat) : Option ℚ :=
  (s.find? (fun p => p.1 == d)).map Prod.snd

/-- Value of a series at a date, defaulting to 0; used only at dates where
the series is known to be defined. -/
def valAt (s : Series) (d : Nat) : ℚ :=
  (seriesAt s d).getD 0

/-! ## Backoff Fetcher (`fetch_data_with_backoff`, app.py lines 28-48)

The HTTP layer is an oracle `resp : Nat → HttpOutcome α` giving the outcome
of the i-th request attempt, and `jitter : Nat → ℚ` the value drawn by
`random.uniform(0, 1)` before the i-th backoff sleep. -/

/-- Outcome of one `requests.get` call: a 2xx response with parsed JSON
body, an HTTP error status (raised by `raise_for_status`, but the response
object exists), or a transport-level exception raised before any response
object exists. -/
inductive HttpOutcome (α : Type) where
  | success (body : α)
  | httpError (status : Nat)
  | transportError
deriving DecidableEq, Repr

/-- Result of the fetch helper.  `ok` models returning `response.json()`,
`failure` models returning `None`, `crash` models the uncaught
`UnboundLocalError` raised when the `except` block reads
`response.status_code` while `response` was never assigned. -/
inductive FetchResult (α : Type) where
  | ok (body : α)
  | failure
  | crash
deriving DecidableEq, Repr

/-- One pass of the `while retries < max_retries` loop of
`fetch_data_with_backoff`.  `prev` is the status of the response object
left over from an earlier iteration (the Python local `response`), `retries`
the current retry counter, and the last argument the remaining loop budget
`max_retries - retries`.  Returns the result together with the list of
backoff delays slept, in order. -/
def fetchLoop {α : Type} (resp : Nat → HttpOutcome α) (jitter : Nat → ℚ)
    (bf : ℚ) : Option Nat → Nat → Nat → FetchResult α × List ℚ
  | _, _, 0 => (.failure, [])
  | prev, retries, remaining + 1 =>
    match resp retries with
    | .success a => (.ok a, [])
    | .httpError s =>
      if s == 429 then
        let r := fetchLoop resp jitter bf (some s) (retries + 1) remaining
        (r.1, (bf * 2 ^ retries + jitter retries) :: r.2)
      else (.failure, [])
    | .transportError =>
      match prev with
      | none => (.crash, [])
      | some s =>
        if s == 429 then
          let r := fetchLoop resp jitter bf prev (retries + 1) remaining
          (r.1, (bf * 2 ^ retries + jitter retries) :: r.2)
        else (.failure, [])

/-- Embedding of `fetch_data_with_backoff` (app.py line 28): starts the
loop with the retry counter at 0 and no response object yet assigned. -/
def fetch_data_with_backoff {α : Type} (resp : Nat → HttpOutcome α)
    (jitter : Nat → ℚ) (maxRetries : Nat) (backoffFactor : ℚ) :
    FetchResult α × List ℚ :=
  fetchLoop resp jitter backoffFactor none 0 maxRetries

/-! ## Coin Series Loader (`fetch_coin_market_data`, app.py lines 52-62) -/

/-- Truncation of a millisecond epoch timestamp to its calendar day, as
done by the pandas datetime conversion on app.py line 58. -/
def msToDate (ms : Nat) : Nat := ms / 86400000

/-- Embedding of the deduplication step of app.py line 59 (keep the last
row per timestamp): keep a row exactly when no later row carries the same
date. -/
def dropDuplicatesKeepLast : Series → Series
  | [] => []
  | p :: rest =>
    if rest.any (fun q => q.1 == p.1) then dropDuplicatesKeepLast rest
    else p :: dropDuplicatesKeepLast rest

/-- The series construction of `fetch_coin_market_data` applied to the raw
`market_caps` pairs `(timestamp_ms, market_cap)` of a successful response:
timestamps truncated to dates, then deduplicated keeping the last sample. -/
def fetch_coin_market_data (raw : List (Nat × ℚ)) : Series :=
  dropDuplicatesKeepLast (raw.map (fun p => (msToDate p.1, p.2)))

/-- The value carried by the last pair of the list having the given date,
if any: the "last-seen sample" for that date. -/
def lastVal : Series → Nat → Option ℚ
  | [], _ => none
  | p :: rest, d =>
    match lastVal rest d with
    | some v => some v
    | none => if p.1 = d then some p.2 else none

/-! ## Aggregator (`fetch_aggregated_total_market_cap`, app.py lines 65-89) -/

/-- The series collected into `all_coin_market_caps`: one per asset whose
fetch succeeded with a non-empty series (`if market_cap_series is not None
and not market_cap_series.empty`). -/
def availableSeries (assets : List (String × Series)) : List Series :=
  (assets.filter (fun a => !a.2.isEmpty)).map Prod.snd

/-- The union of the date indices of a family of series: the index of
`pd.DataFrame(all_coin_market_caps)` before `dropna`. -/
def unionDates (ss : List Series) : List Nat :=
  (ss.flatMap (fun s => s.map Prod.fst)).dedup

/-- The date index of `pd.DataFrame(all_coin_market_caps).dropna()`: the
dates at which every available series is defined. -/
def aggDates (assets : List (String × Series)) : List Nat :=
  (unionDates (availableSeries assets)).filter
    (fun d => (availableSeries assets).all (fun s => (seriesAt s d).isSome))

/-- Embedding of `fetch_aggregated_total_market_cap`: build the combined frame, drop
rows with any missing value (keeping the dates where every available
series is defined), and sum each row scaled by the hard-coded `* 1.10`
buffer (app.py line 87).  Returns `none` on the two empty-data early
exits. -/
def fetch_aggregated_total_market_cap (assets : List (String × Series)) :
    Option Series :=
  if (availableSeries assets).isEmpty then none
  else if (aggDates assets).isEmpty then none
  else some ((aggDates assets).map
    (fun d => (d, ((availableSeries assets).map (fun s => valAt s d)).sum * (11 / 10))))

/-! ## Main-frame join and composite columns (app.py lines 118-146)

The frame starts from the TOTAL series, is left-merged with each
available coin series, and `dropna()` keeps exactly those dates of the
index of TOTAL at which every available coin series is defined. -/

/-- The date index of `df` after the left merges and `dropna()`. -/
def pipelineDates (total : Series) (coins : List Series) : List Nat :=
  (total.map Prod.fst).filter (fun d => coins.all (fun s => (seriesAt s d).isSome))

/-- Embedding of the SUM_TOP_10 column: the row-wise sum of the available
coin columns (app.py lines 127-129). -/
def dfSUMTOP (total : Series) (coins : List Series) : Series :=
  (pipelineDates total coins).map (fun d => (d, (coins.map (fun s => valAt s d)).sum))

/-- Embedding of the TOTAL2 column: TOTAL minus the bitcoin column
(app.py line 133). -/
def dfTOTAL2 (total btc : Series) (coins : List Series) : Series :=
  (pipelineDates total coins).map (fun d => (d, valAt total d - valAt btc d))

/-- Embedding of the OTHERS column: TOTAL minus SUM_TOP_10 (app.py
line 134). -/
def dfOTHERS (total : Series) (coins : List Series) : Series :=
  (pipelineDates total coins).map
    (fun d => (d, valAt total d - (coins.map (fun s => valAt s d)).sum))

/-- Embedding of the TOTAL2_DIV_TOTAL column: TOTAL2 over TOTAL times 100
(app.py line 140). -/
def dfT2TPercent (total btc : Series) (coins : List Series) : Series :=
  (pipelineDates total coins).map
    (fun d => (d, (valAt total d - valAt btc d) / valAt total d * 100))

/-- Embedding of the OTHERS_DIV_TOTAL column: OTHERS over TOTAL times 100
(app.py line 144). -/
def dfOthersPercent (total : Series) (coins : List Series) : Series :=
  (pipelineDates total coins).map
    (fun d => (d, (valAt total d - (coins.map (fun s => valAt s d)).sum)
      / valAt total d * 100))

/-! ## Indicator Engine (app.py lines 137-151) -/

/-- Embedding of the rolling-mean column computation: position `i` of the result is the
mean of the `w` values ending at position `i`, missing (`NaN`, embedded as
`none`) while fewer than `w` values are available. -/
def rollingMean (xs : List ℚ) (w : Nat) : List (Option ℚ) :=
  (List.range xs.length).map (fun i =>
    if i + 1 < w then none
    else some (((xs.drop (i + 1 - w)).take w).sum / (w : ℚ)))

/-- Embedding of trailing-element access on a column of possibly-missing values: the last entry,
flattened (`none` both for an empty column and for a trailing `NaN`). -/
def lastOpt (l : List (Option ℚ)) : Option ℚ :=
  match l.getLast? with
  | some v => v
  | none => none

/-- The trend computation of app.py lines 149-151:
the label is Bullish when the trailing short average strictly exceeds the
trailing long average, and Bearish otherwise.
A comparison involving a missing value (`NaN`) is false in pandas, so any
`none` operand yields `"Bearish"`. -/
def trendLabel (s : List ℚ) (shortW longW : Nat) : String :=
  match lastOpt (rollingMean s shortW), lastOpt (rollingMean s longW) with
  | some a, some b => if b < a then "Bullish" else "Bearish"
  | _, _ => "Bearish"

/-! ## Theorems about the Backoff Fetcher -/

/-- The list of backoff delays slept by the loop, starting from retry
counter `start`, for `n` consecutive rate-limited attempts. -/
def delaySeq (bf : ℚ) (jitter : Nat → ℚ) (start n : Nat) : List ℚ :=
  (List.range n).map (fun i => bf * 2 ^ (start + i) + jitter (start + i))

theorem delaySeq_succ (bf : ℚ) (jitter : Nat → ℚ) (start n : Nat) :
    delaySeq bf jitter start (n + 1)
      = (bf * 2 ^ start + jitter start) :: delaySeq bf jitter (start + 1) n := by
  simp only [delaySeq, List.range_succ_eq_map, List.map_cons, List.map_map,
    Nat.add_zero]
  refine congrArg _ ?_
  refine List.map_congr_left ?_
  intro i _
  simp [Function.comp, Nat.add_comm, Nat.add_assoc, Nat.add_left_comm]

theorem fetchLoop_all_rate_limited {α : Type} (resp : Nat → HttpOutcome α)
    (jitter : Nat → ℚ) (bf : ℚ) :
    ∀ remaining retries prev,
      (∀ i, i < remaining → resp (retries + i) = .httpError 429) →
      fetchLoop resp jitter bf prev retries remaining
        = (.failure, delaySeq bf jitter retries remaining) := by
  intro remaining
  induction remaining with
  | zero =>
    intro retries prev _
    simp [fetchLoop, delaySeq]
  | succ m ih =>
    intro retries prev h
    have h0 : resp retries = .httpError 429 := by
      simpa using h 0 m.succ_pos
    have hrec := ih (retries + 1) (some 429) (fun i hi => by
      have := h (i + 1) (Nat.succ_lt_succ hi)
      simpa [Nat.add_assoc, Nat.add_comm 1 i] using this)
    simp [fetchLoop, h0, hrec, delaySeq_succ]

theorem fetchLoop_success_after {α : Type} (resp : Nat → HttpOutcome α)
    (jitter : Nat → ℚ) (bf : ℚ) (a : α) :
    ∀ k remaining retries prev, k < remaining →
      (∀ i, i < k → resp (retries + i) = .httpError 429) →
      resp (retries + k) = .success a →
      fetchLoop resp jitter bf prev retries remaining
        = (.ok a, delaySeq bf jitter retries k) := by
  intro k
  induction k with
  | zero =>
    intro remaining retries prev hk _ hs
    obtain ⟨m, rfl⟩ := Nat.exists_eq_succ_of_ne_zero (Nat.pos_iff_ne_zero.mp hk)
    simp only [Nat.add_zero] at hs
    simp [fetchLoop, hs, delaySeq]
  | succ k ih =>
    intro remaining retries prev hk h429 hs
    obtain ⟨m, rfl⟩ := Nat.exists_eq_succ_of_ne_zero
      (Nat.pos_iff_ne_zero.mp (Nat.lt_of_le_of_lt (Nat.zero_le _) hk))
    have h0 : resp retries = .httpError 429 := by
      simpa using h429 0 k.succ_pos
    have hrec := ih m (retries + 1) (some 429) (Nat.lt_of_succ_lt_succ hk)
      (fun i hi => by
        have := h429 (i + 1) (Nat.succ_lt_succ hi)
        simpa [Nat.add_assoc, Nat.add_comm 1 i] using this)
      (by
        have : retries + 1 + k = retries + (k + 1) := by omega
        rw [this]; exact hs)
    simp [fetchLoop, h0, hrec, delaySeq_succ]

theorem fetch_transport_first_attempt_crash {α : Type}
    (resp : Nat → HttpOutcome α) (jitter : Nat → ℚ) (bf : ℚ)
    (maxRetries : Nat) (h0 : resp 0 = .transportError) (hm : 0 < maxRetries) :
    (fetch_data_with_backoff resp jitter maxRetries bf).1 = .crash := by
  obtain ⟨m, rfl⟩ := Nat.exists_eq_succ_of_ne_zero (Nat.pos_iff_ne_zero.mp hm)
  simp [fetch_data_with_backoff, fetchLoop, h0]

/-- C1: On a transport-level exception raised before any response object
exists (a transport error on the very first attempt, with the default five
retries and unit backoff factor), the code of `fetch_data_with_backoff`
does not take a guarded failure path returning `None`: its `except` block
reads `response.status_code` while the local `response` was never
assigned, raising `UnboundLocalError` — embedded as the `.crash` outcome
instead of the claimed `.failure`.  The general fact, for any oracle whose
first attempt raises a transport error, is
`fetch_transport_first_attempt_crash` above. -/
theorem c1_unguarded_transport_probe :
    (fetch_data_with_backoff (α := Nat) (fun _ => .transportError)
      (fun _ => 0) 5 1).1 = .crash :=
  fetch_transport_first_attempt_crash (fun _ => .transportError) (fun _ => 0)
    1 5 rfl (by decide)

/-- C5: `n` consecutive rate-limit responses produce exactly `n` backoff
retries, the `i`-th preceded by a delay of `backoff_factor * 2 ^ i` plus
the `i`-th jitter draw from `[0, 1)`; when `n = max_retries` the function
then stops and returns the terminal failure (`None`), and when
`n < max_retries` and the next attempt succeeds it returns its body after
those same `n` delays. -/
theorem c5_backoff_bound {α : Type} (resp : Nat → HttpOutcome α)
    (jitter : Nat → ℚ) (bf : ℚ) (maxRetries n : Nat) (a : α)
    (_hjit : ∀ i, 0 ≤ jitter i ∧ jitter i < 1)
    (h429 : ∀ i, i < n → resp i = .httpError 429) :
    (n = maxRetries →
      fetch_data_with_backoff resp jitter maxRetries bf
        = (.failure, (List.range n).map (fun i => bf * 2 ^ i + jitter i))) ∧
    (n < maxRetries → resp n = .success a →
      fetch_data_with_backoff resp jitter maxRetries bf
        = (.ok a, (List.range n).map (fun i => bf * 2 ^ i + jitter i))) := by
  have hseq : delaySeq bf jitter 0 n
      = (List.range n).map (fun i => bf * 2 ^ i + jitter i) := by
    simp [delaySeq]
  constructor
  · intro hn
    subst hn
    rw [← hseq]
    exact fetchLoop_all_rate_limited resp jitter bf n 0 none
      (fun i hi => by simpa using h429 i hi)
  · intro hn hs
    rw [← hseq]
    exact fetchLoop_success_after resp jitter bf a n maxRetries 0 none hn
      (fun i hi => by simpa using h429 i hi) (by simpa using hs)

theorem c5_backoff_bound_witness :
    (2 : Nat) < 5 ∧
    fetch_data_with_backoff
        (fun i => if i < 2 then HttpOutcome.httpError 429
                  else HttpOutcome.success (7 : ℚ))
        (fun _ => 0) 5 1
      = (.ok 7, [1, 2]) := by
  refine ⟨by decide, ?_⟩
  have h := (c5_backoff_bound
      (fun i => if i < 2 then HttpOutcome.httpError 429
                else HttpOutcome.success (7 : ℚ))
      (fun _ => 0) 1 5 2 7
      (fun i => ⟨le_rfl, by norm_num⟩) (by decide)).2 (by decide) (by decide)
  rw [h]
  norm_num [List.range_succ]

/-! ## Theorems about the Coin Series Loader -/

theorem mem_of_mem_dropDuplicatesKeepLast (l : Series) :
    ∀ p ∈ dropDuplicatesKeepLast l, p ∈ l := by
  induction l with
  | nil => intro p hp; cases hp
  | cons a rest ih =>
    intro p hp
    unfold dropDuplicatesKeepLast at hp
    by_cases h : rest.any (fun q => q.1 == a.1)
    · rw [if_pos h] at hp
      exact List.mem_cons_of_mem a (ih p hp)
    · rw [if_neg h] at hp
      rcases List.mem_cons.mp hp with h1 | h1
      · exact h1 ▸ List.mem_cons_self a rest
      · exact List.mem_cons_of_mem a (ih p h1)

theorem keys_nodup_dropDuplicatesKeepLast (l : Series) :
    ((dropDuplicatesKeepLast l).map Prod.fst).Nodup := by
  induction l with
  | nil => simp [dropDuplicatesKeepLast]
  | cons a rest ih =>
    unfold dropDuplicatesKeepLast
    by_cases h : rest.any (fun q => q.1 == a.1)
    · rw [if_pos h]; exact ih
    · rw [if_neg h]
      refine List.nodup_cons.mpr ⟨?_, ih⟩
      intro hmem
      rcases List.mem_map.mp hmem with ⟨q, hq, hq1⟩
      have hq' : q ∈ rest := mem_of_mem_dropDuplicatesKeepLast rest q hq
      exact h (List.any_eq_true.mpr ⟨q, hq', by simpa using hq1⟩)

theorem lastVal_eq_none_of_not_mem (l : Series) (d : Nat)
    (h : d ∉ l.map Prod.fst) : lastVal l d = none := by
  induction l with
  | nil => rfl
  | cons a rest ih =>
    have hd : a.1 ≠ d := by
      intro he; exact h (List.mem_map.mpr ⟨a, List.mem_cons_self a rest, he⟩)
    have hrest : d ∉ rest.map Prod.fst := by
      intro hm; exact h (by simpa using Or.inr (by simpa using hm))
    unfold lastVal
    rw [ih hrest]
    simp [hd]

theorem lastVal_of_mem_dropDuplicatesKeepLast (l : Series) :
    ∀ p ∈ dropDuplicatesKeepLast l, lastVal l p.1 = some p.2 := by
  induction l with
  | nil => intro p hp; cases hp
  | cons a rest ih =>
    intro p hp
    unfold dropDuplicatesKeepLast at hp
    by_cases h : rest.any (fun q => q.1 == a.1)
    · rw [if_pos h] at hp
      have := ih p hp
      unfold lastVal
      rw [this]
    · rw [if_neg h] at hp
      rcases List.mem_cons.mp hp with h1 | h1
      · subst h1
        have hnm : p.1 ∉ rest.map Prod.fst := by
          intro hm
          rcases List.mem_map.mp hm with ⟨q, hq, hq1⟩
          exact h (List.any_eq_true.mpr ⟨q, hq, by simpa using hq1⟩)
        unfold lastVal
        rw [lastVal_eq_none_of_not_mem rest p.1 hnm]
        simp
      · have := ih p h1
        unfold lastVal
        rw [this]

theorem keys_complete_dropDuplicatesKeepLast (l : Series) :
    ∀ q ∈ l, q.1 ∈ (dropDuplicatesKeepLast l).map Prod.fst := by
  induction l with
  | nil => intro q hq; cases hq
  | cons a rest ih =>
    intro q hq
    unfold dropDuplicatesKeepLast
    by_cases h : rest.any (fun p => p.1 == a.1)
    · rw [if_pos h]
      rcases List.mem_cons.mp hq with h1 | h1
      · subst h1
        rcases List.any_eq_true.mp h with ⟨r, hr, hr1⟩
        have : r.1 = q.1 := by simpa using hr1
        exact this ▸ ih r hr
      · exact ih q h1
    · rw [if_neg h]
      rcases List.mem_cons.mp hq with h1 | h1
      · subst h1; simp
      · simp only [List.map_cons, List.mem_cons]
        exact Or.inr (ih q h1)

/-- C9: the series built by `fetch_coin_market_data` from the raw
`(timestamp_ms, value)` pairs has no duplicate dates, every date of some
raw sample (truncated to a calendar day) is represented, and the value
kept for each date is the one of the last raw sample collapsing onto that
date. -/
theorem c9_dedup_keeps_last_sample (raw : List (Nat × ℚ)) :
    ((fetch_coin_market_data raw).map Prod.fst).Nodup ∧
    (∀ p ∈ fetch_coin_market_data raw,
      lastVal (raw.map (fun q => (msToDate q.1, q.2))) p.1 = some p.2) ∧
    (∀ q ∈ raw, msToDate q.1 ∈ (fetch_coin_market_data raw).map Prod.fst) := by
  refine ⟨keys_nodup_dropDuplicatesKeepLast _, ?_, ?_⟩
  · intro p hp
    exact lastVal_of_mem_dropDuplicatesKeepLast _ p hp
  · intro q hq
    have : (msToDate q.1, q.2) ∈ raw.map (fun r => (msToDate r.1, r.2)) :=
      List.mem_map.mpr ⟨q, hq, rfl⟩
    simpa using keys_complete_dropDuplicatesKeepLast _ _ this

theorem c9_dedup_keeps_last_sample_witness :
    lastVal ([((0 : Nat), (1 : ℚ)), (1000, 2)].map
      (fun q => (msToDate q.1, q.2))) 0 = some 2 := by
  refine (c9_dedup_keeps_last_sample [(0, 1), (1000, 2)]).2.1 (0, 2) ?_
  show (0, 2) ∈ fetch_coin_market_data [(0, 1), (1000, 2)]
  norm_num [fetch_coin_market_data, dropDuplicatesKeepLast, msToDate]

/-! ## Theorems about the Aggregator and the main-frame composites -/

theorem seriesAt_map_self (dates : List Nat) (f : Nat → ℚ) :
    ∀ d ∈ dates, seriesAt (dates.map (fun x => (x, f x))) d = some (f d) := by
  induction dates with
  | nil => intro d hd; cases hd
  | cons a rest ih =>
    intro d hd
    by_cases h : a = d
    · subst h
      simp [seriesAt]
    · have hd' : d ∈ rest := by
        rcases List.mem_cons.mp hd with h1 | h1
        · exact absurd h1.symm h
        · exact h1
      have hrec := ih d hd'
      unfold seriesAt at hrec ⊢
      rw [List.map_cons, List.find?_cons_of_neg _ (by simpa using h)]
      exact hrec

theorem keys_map_pair (dates : List Nat) (f : Nat → ℚ) :
    (dates.map (fun d => (d, f d))).map Prod.fst = dates := by
  induction dates with
  | nil => rfl
  | cons a rest ih => simp only [List.map_cons]; rw [ih]

theorem mem_keys_of_seriesAt_isSome (s : Series) (d : Nat)
    (h : (seriesAt s d).isSome) : d ∈ s.map Prod.fst := by
  unfold seriesAt at h
  cases hf : s.find? (fun p => p.1 == d) with
  | none => rw [hf] at h; simp at h
  | some q =>
    have hq := List.find?_some hf
    have hmem : q ∈ s := List.mem_of_find?_eq_some hf
    exact List.mem_map.mpr ⟨q, hmem, by simpa using hq⟩

theorem fetch_agg_eq (assets : List (String × Series)) (total : Series)
    (h : fetch_aggregated_total_market_cap assets = some total) :
    total = (aggDates assets).map (fun d =>
      (d, ((availableSeries assets).map (fun s => valAt s d)).sum * (11 / 10))) := by
  unfold fetch_aggregated_total_market_cap at h
  by_cases h1 : (availableSeries assets).isEmpty
  · rw [if_pos h1] at h; cases h
  · rw [if_neg h1] at h
    by_cases h2 : (aggDates assets).isEmpty
    · rw [if_pos h2] at h; cases h
    · rw [if_neg h2] at h
      exact (Option.some.inj h).symm

theorem mem_aggDates (assets : List (String × Series)) (d : Nat)
    (hd : d ∈ aggDates assets) :
    ∀ s ∈ availableSeries assets, d ∈ s.map Prod.fst := by
  intro s hs
  have hall := (List.mem_filter.mp hd).2
  have := List.all_eq_true.mp hall s hs
  exact mem_keys_of_seriesAt_isSome s d (by simpa using this)

theorem mem_pipelineDates (total : Series) (coins : List Series) (d : Nat)
    (hd : d ∈ pipelineDates total coins) :
    d ∈ total.map Prod.fst ∧ ∀ s ∈ coins, d ∈ s.map Prod.fst := by
  have h1 := (List.mem_filter.mp hd).1
  have h2 := (List.mem_filter.mp hd).2
  refine ⟨h1, fun s hs => ?_⟩
  have := List.all_eq_true.mp h2 s hs
  exact mem_keys_of_seriesAt_isSome s d (by simpa using this)

theorem availableSeries_of_none_empty (assets : List (String × Series))
    (hall : ∀ a ∈ assets, a.2.isEmpty = false) :
    availableSeries assets = assets.map Prod.snd := by
  unfold availableSeries
  rw [List.filter_eq_self.mpr (fun a ha => by simp [hall a ha])]

/-- A one-asset run used to instantiate the aggregator theorems: a single
available series with value 100 on date 0 yields a TOTAL of 110. -/
theorem agg_single_asset_example :
    fetch_aggregated_total_market_cap [("bitcoin", [((0 : Nat), (100 : ℚ))])]
      = some [(0, 110)] := by
  norm_num [fetch_aggregated_total_market_cap, availableSeries, aggDates,
    unionDates, seriesAt, valAt, List.dedup, List.find?]

/-- C2 fails on the code: the buffer factor is the hard-coded literal
`* 1.10` of app.py line 87, so even with no configuration supplied (the
claimed default `1.0`) the TOTAL of a basket summing to 100 is 110, not
the plain basket sum. -/
theorem c2_counterexample :
    fetch_aggregated_total_market_cap [("bitcoin", [((0 : Nat), (100 : ℚ))])]
      = some [(0, 110)] ∧ (110 : ℚ) ≠ 100 :=
  ⟨agg_single_asset_example, by norm_num⟩

/-- C2 amended: the TOTAL composite at each of its dates equals the sum of
the available basket series at that date scaled by `1.10`; the factor is
hard-coded in `fetch_aggregated_total_market_cap` (app.py line 87), with
no `buffer_factor` parameter and no default-`1.0` (disabled) setting. -/
theorem c2_total_buffer_hardcoded (assets : List (String × Series))
    (total : Series)
    (h : fetch_aggregated_total_market_cap assets = some total) :
    ∀ p ∈ total,
      p.2 = ((availableSeries assets).map (fun s => valAt s p.1)).sum * (11 / 10) := by
  intro p hp
  rw [fetch_agg_eq assets total h] at hp
  rcases List.mem_map.mp hp with ⟨d, _, hd⟩
  rw [← hd]

theorem c2_total_buffer_hardcoded_witness :
    (110 : ℚ) = ((availableSeries [("bitcoin", [((0 : Nat), (100 : ℚ))])]).map
      (fun s => valAt s 0)).sum * (11 / 10) := by
  have h := c2_total_buffer_hardcoded [("bitcoin", [(0, 100)])] [(0, 110)]
    agg_single_asset_example (0, 110) (List.mem_singleton.mpr rfl)
  exact h

/-- C7: intersection law.  The date index of the aggregated TOTAL is
contained in the index of every available input series, and the date index
of each derived main-frame composite (TOTAL2, OTHERS, SUM_TOP_10, the
TOTAL2/TOTAL percentage and the OTHERS/TOTAL percentage) is contained in
the index of TOTAL and in the index of every merged coin series; no
composite date can be missing from a required input. -/
theorem c7_intersection_law :
    (∀ (assets : List (String × Series)) (total : Series),
      fetch_aggregated_total_market_cap assets = some total →
      ∀ d ∈ total.map Prod.fst, ∀ s ∈ availableSeries assets,
        d ∈ s.map Prod.fst) ∧
    (∀ (total btc : Series) (coins : List Series) (d : Nat),
      (d ∈ (dfTOTAL2 total btc coins).map Prod.fst ∨
       d ∈ (dfOTHERS total coins).map Prod.fst ∨
       d ∈ (dfSUMTOP total coins).map Prod.fst ∨
       d ∈ (dfT2TPercent total btc coins).map Prod.fst ∨
       d ∈ (dfOthersPercent total coins).map Prod.fst) →
      d ∈ total.map Prod.fst ∧ ∀ s ∈ coins, d ∈ s.map Prod.fst) := by
  constructor
  · intro assets total h d hd s hs
    rw [fetch_agg_eq assets total h, keys_map_pair] at hd
    exact mem_aggDates assets d hd s hs
  · intro total btc coins d hd
    have hpd : d ∈ pipelineDates total coins := by
      rcases hd with h | h | h | h | h
      · rwa [dfTOTAL2, keys_map_pair] at h
      · rwa [dfOTHERS, keys_map_pair] at h
      · rwa [dfSUMTOP, keys_map_pair] at h
      · rwa [dfT2TPercent, keys_map_pair] at h
      · rwa [dfOthersPercent, keys_map_pair] at h
    exact mem_pipelineDates total coins d hpd

theorem c7_intersection_law_witness :
    (0 : Nat) ∈ ([((0 : Nat), (110 : ℚ))]).map Prod.fst :=
  (c7_intersection_law.2 [((0 : Nat), (110 : ℚ))] [((0 : Nat), (100 : ℚ))]
    [[((0 : Nat), (100 : ℚ))]] 0 (Or.inl (by decide))).1

/-- C4: at every date of the joined frame at which TOTAL has value `x` and
the primary asset (bitcoin) has value `y`, the TOTAL2 column holds exactly
`x - y` (app.py line 133); exact rational arithmetic, so the
floating-point-tolerance proviso is vacuous here. -/
theorem c4_total2_pointwise_difference (total btc : Series)
    (coins : List Series) (d : Nat) (hd : d ∈ pipelineDates total coins)
    (x y : ℚ) (hx : seriesAt total d = some x) (hy : seriesAt btc d = some y) :
    seriesAt (dfTOTAL2 total btc coins) d = some (x - y) := by
  have h1 : seriesAt (dfTOTAL2 total btc coins) d
      = some (valAt total d - valAt btc d) :=
    seriesAt_map_self (pipelineDates total coins)
      (fun e => valAt total e - valAt btc e) d hd
  rw [h1, valAt, valAt, hx, hy]
  rfl

theorem c4_total2_pointwise_difference_witness :
    seriesAt (dfTOTAL2 [((0 : Nat), (110 : ℚ))] [((0 : Nat), (100 : ℚ))]
      [[((0 : Nat), (100 : ℚ))]]) 0 = some ((110 : ℚ) - 100) :=
  c4_total2_pointwise_difference [(0, 110)] [(0, 100)] [[(0, 100)]] 0
    (by decide) 110 100 rfl rfl

/-- C10: in a run where every basket asset loads (so the aggregated TOTAL
is `1.10` times the basket sum) the OTHERS column is not the capital
outside the basket but exactly the buffer margin: one tenth of the basket
sum at every joined date, nonzero whenever the basket sum is positive. -/
theorem c10_others_tracks_buffer_margin (assets : List (String × Series))
    (total : Series)
    (hall : ∀ a ∈ assets, a.2.isEmpty = false)
    (h : fetch_aggregated_total_market_cap assets = some total)
    (d : Nat) (hd : d ∈ pipelineDates total (assets.map Prod.snd)) :
    seriesAt (dfOTHERS total (assets.map Prod.snd)) d
      = some (((assets.map Prod.snd).map (fun s => valAt s d)).sum * (1 / 10)) ∧
    (0 < ((assets.map Prod.snd).map (fun s => valAt s d)).sum →
      ((assets.map Prod.snd).map (fun s => valAt s d)).sum * (1 / 10) ≠ 0) := by
  have hav := availableSeries_of_none_empty assets hall
  have htot := fetch_agg_eq assets total h
  rw [hav] at htot
  have hdk : d ∈ total.map Prod.fst := (mem_pipelineDates _ _ _ hd).1
  have hda : d ∈ aggDates assets := by
    rw [htot, keys_map_pair] at hdk
    exact hdk
  have hTot : seriesAt total d
      = some (((assets.map Prod.snd).map (fun s => valAt s d)).sum * (11 / 10)) := by
    rw [htot]
    exact seriesAt_map_self _ _ d hda
  have hvTot : valAt total d
      = ((assets.map Prod.snd).map (fun s => valAt s d)).sum * (11 / 10) := by
    rw [valAt, hTot]
    rfl
  constructor
  · have h1 : seriesAt (dfOTHERS total (assets.map Prod.snd)) d
        = some (valAt total d
            - ((assets.map Prod.snd).map (fun s => valAt s d)).sum) :=
      seriesAt_map_self (pipelineDates total (assets.map Prod.snd))
        (fun e => valAt total e
          - ((assets.map Prod.snd).map (fun s => valAt s e)).sum) d hd
    rw [h1, hvTot]
    congr 1
    ring
  · intro hpos
    have : 0 < ((assets.map Prod.snd).map (fun s => valAt s d)).sum * (1 / 10) := by
      positivity
    exact ne_of_gt this

theorem c10_others_tracks_buffer_margin_witness :
    seriesAt (dfOTHERS [((0 : Nat), (110 : ℚ))]
        ([("bitcoin", [((0 : Nat), (100 : ℚ))])].map Prod.snd)) 0
      = some ((([("bitcoin", [((0 : Nat), (100 : ℚ))])].map Prod.snd).map
          (fun s => valAt s 0)).sum * (1 / 10)) :=
  (c10_others_tracks_buffer_margin [("bitcoin", [(0, 100)])] [(0, 110)]
    (by simp) agg_single_asset_example 0 (by decide)).1

/-! ## Theorems about the Indicator Engine -/

theorem rollingMean_length (xs : List ℚ) (w : Nat) :
    (rollingMean xs w).length = xs.length := by
  simp [rollingMean]

theorem rollingMean_getElem? (xs : List ℚ) (w i : Nat) (hi : i < xs.length) :
    (rollingMean xs w)[i]?
      = some (if i + 1 < w then none
        else some (((xs.drop (i + 1 - w)).take w).sum / (w : ℚ))) := by
  have hi' : i < (rollingMean xs w).length := by
    rw [rollingMean_length]; exact hi
  rw [List.getElem?_eq_getElem hi']
  congr 1
  simp [rollingMean]

/-- C8: simple-moving-average semantics of `rolling(window=w).mean()`:
the output has one entry per input date, missing (`NaN`) at each of the
first `w - 1` positions, defined at every later position `i` with value
the arithmetic mean of the `w` values ending at `i`, and in particular at
position `w - 1` the mean of the first `w` values. -/
theorem c8_sma_window_semantics (xs : List ℚ) (w : Nat) (hw : 1 ≤ w) :
    (rollingMean xs w).length = xs.length ∧
    (∀ i, i < xs.length → i + 1 < w → (rollingMean xs w)[i]? = some none) ∧
    (∀ i, i < xs.length → w ≤ i + 1 →
      (rollingMean xs w)[i]?
        = some (some (((xs.take (i + 1)).drop (i + 1 - w)).sum / (w : ℚ)))) ∧
    (w - 1 < xs.length →
      (rollingMean xs w)[w - 1]? = some (some ((xs.take w).sum / (w : ℚ)))) := by
  have hdefined : ∀ i, i < xs.length → w ≤ i + 1 →
      (rollingMean xs w)[i]?
        = some (some (((xs.take (i + 1)).drop (i + 1 - w)).sum / (w : ℚ))) := by
    intro i hi hwi
    rw [rollingMean_getElem? xs w i hi, if_neg (by omega)]
    rw [List.take_drop, Nat.sub_add_cancel hwi]
  refine ⟨rollingMean_length xs w, ?_, hdefined, ?_⟩
  · intro i hi hwi
    rw [rollingMean_getElem? xs w i hi, if_pos hwi]
  · intro hw1
    have h3 := hdefined (w - 1) hw1 (by omega)
    have hww : w - 1 + 1 = w := Nat.succ_pred_eq_of_pos hw
    rw [hww, Nat.sub_self, List.drop_zero] at h3
    exact h3

theorem c8_sma_window_semantics_witness :
    (rollingMean [1, 2, 3] 2)[2 - 1]?
      = some (some ((([1, 2, 3] : List ℚ).take 2).sum / ((2 : Nat) : ℚ))) :=
  (c8_sma_window_semantics [1, 2, 3] 2 (by decide)).2.2.2 (by decide)

theorem lastOpt_eq_of_getLast? (l : List (Option ℚ)) (v : Option ℚ)
    (h : l.getLast? = some v) : lastOpt l = v := by
  unfold lastOpt
  rw [h]

theorem lastOpt_rollingMean (xs : List ℚ) (w : Nat) (hx : xs ≠ []) :
    lastOpt (rollingMean xs w)
      = if xs.length < w then none
        else some (((xs.drop (xs.length - w)).take w).sum / (w : ℚ)) := by
  have hn : 0 < xs.length := List.length_pos.mpr hx
  have hlt : xs.length - 1 < xs.length := by omega
  have hsp : xs.length - 1 + 1 = xs.length := Nat.succ_pred_eq_of_pos hn
  have hget := rollingMean_getElem? xs w (xs.length - 1) hlt
  rw [hsp] at hget
  refine lastOpt_eq_of_getLast? _ _ ?_
  rw [List.getLast?_eq_getElem?, rollingMean_length]
  exact hget

/-- C3 fails on the code: the trend computation of app.py line 149 reads
`iloc[-1]` of both moving-average columns unconditionally.  For a series
with a single date (far fewer than the long window of 30), no
`InsufficientHistory` condition is raised: the `NaN > NaN` comparison is
false and the code silently emits the "Bearish" classification. -/
theorem c3_counterexample : trendLabel [1] 10 30 = "Bearish" := rfl

/-- C3 amended: the trend is evaluated at the latest date of the series
unconditionally.  When the series has fewer than `long_window` dates the
long average is missing there and the comparison silently classifies
"Bearish" (pandas `NaN` comparisons are false) instead of failing with an
`InsufficientHistory` condition; when the series has at least
`long_window` dates, both averages are defined at that latest date and the
classification is the strict comparison of the two. -/
theorem c3_trend_evaluated_blindly (s : List ℚ) (shortW longW : Nat)
    (hS : 1 ≤ shortW) (hSL : shortW ≤ longW) :
    (s.length < longW → trendLabel s shortW longW = "Bearish") ∧
    (longW ≤ s.length → ∃ a b,
      lastOpt (rollingMean s shortW) = some a ∧
      lastOpt (rollingMean s longW) = some b ∧
      trendLabel s shortW longW = (if b < a then "Bullish" else "Bearish")) := by
  constructor
  · intro hlen
    by_cases hx : s = []
    · subst hx
      rfl
    · have hlong : lastOpt (rollingMean s longW) = none := by
        rw [lastOpt_rollingMean s longW hx, if_pos hlen]
      unfold trendLabel
      rw [hlong]
      cases lastOpt (rollingMean s shortW) <;> rfl
  · intro hlen
    have hx : s ≠ [] := by
      intro h
      rw [h] at hlen
      simp at hlen
      omega
    have hshort : lastOpt (rollingMean s shortW)
        = some (((s.drop (s.length - shortW)).take shortW).sum / (shortW : ℚ)) := by
      rw [lastOpt_rollingMean s shortW hx, if_neg (by omega)]
    have hlong : lastOpt (rollingMean s longW)
        = some (((s.drop (s.length - longW)).take longW).sum / (longW : ℚ)) := by
      rw [lastOpt_rollingMean s longW hx, if_neg (by omega)]
    refine ⟨_, _, hshort, hlong, ?_⟩
    unfold trendLabel
    rw [hshort, hlong]

theorem c3_trend_evaluated_blindly_witness :
    trendLabel [5, 6] 10 30 = "Bearish" :=
  (c3_trend_evaluated_blindly [5, 6] 10 30 (by decide) (by decide)).1 (by decide)

/-- C6: the classification is "Bullish" (Ascending) exactly when the short
average strictly exceeds the long average at the evaluated date; in
particular an exact tie of the two averages classifies "Bearish"
(Descending), the non-strict tie-break of app.py lines 149-151. -/
theorem c6_tie_resolves_descending (s : List ℚ) (shortW longW : Nat) :
    (∀ a, lastOpt (rollingMean s shortW) = some a →
      lastOpt (rollingMean s longW) = some a →
      trendLabel s shortW longW = "Bearish") ∧
    (trendLabel s shortW longW = "Bullish" ↔
      ∃ a b, lastOpt (rollingMean s shortW) = some a ∧
        lastOpt (rollingMean s longW) = some b ∧ b < a) := by
  have hBB : ("Bearish" : String) ≠ "Bullish" := by decide
  constructor
  · intro a hSa hLa
    unfold trendLabel
    rw [hSa, hLa]
    simp
  · unfold trendLabel
    cases hSa : lastOpt (rollingMean s shortW) with
    | none => simp [hBB]
    | some a =>
      cases hLa : lastOpt (rollingMean s longW) with
      | none => simp [hBB]
      | some b =>
        by_cases hab : b < a
        · simp [hab]
        · simp [hab, hBB]

theorem c6_tie_resolves_descending_witness :
    trendLabel [1, 1, 1] 1 2 = "Bearish" :=
  (c6_tie_resolves_descending [1, 1, 1] 1 2).1 1
    (by norm_num [rollingMean, lastOpt, List.range_succ])
    (by norm_num [rollingMean, lastOpt, List.range_succ])

end Altseason
